import Mathlib

/-!
Verification of the frappe backup/restore subsystem and the `Post.toggle_like`
helper.  Python strings are embedded as `List Char`, Python lists as Lean
lists; database reads/writes become explicit value passing.
-/

namespace Frappe

/-- A Python string, embedded as its list of characters. -/
abbrev Str := List Char

/-- Lowercase a string character-wise, embedding Python `str.lower()`. -/
def strLower (s : Str) : Str := s.map Char.toLower

/-- Python's `needle in hay` contiguous-substring test. -/
def containsSub (needle : Str) : Str → Bool
  | [] => needle.isEmpty
  | c :: t => needle.isPrefixOf (c :: t) || containsSub needle t

/-- Python's `s.split('\n')` on a nonempty string: split on newline,
keeping empty pieces. -/
def splitNl : Str → List Str
  | [] => [[]]
  | c :: cs =>
    match splitNl cs with
    | [] => [[]]
    | h :: t => if c = '\n' then [] :: h :: t else (c :: h) :: t

/-- Python's `'\n'.join(pieces)`. -/
def joinNl : List Str → Str
  | [] => []
  | [x] => x
  | x :: xs => x ++ '\n' :: joinNl xs

/-- The guarded parse from `toggle_like`:
`liked_by.split('\n') if liked_by else []`. -/
def parseLikedBy (s : Str) : List Str :=
  if s = [] then [] else splitNl s

/-- `toggle_like` from `frappe/social/doctype/post/post.py`, on the stored
`liked_by` value: parse the newline-separated list, remove the user's first
occurrence if present (Python `list.remove`) else append the user, and
re-join with newlines.  The database read/write and the realtime publish
are externalised: the function maps the stored value to the new stored
value. -/
def toggle_like (liked_by user : Str) : Str :=
  let l := parseLikedBy liked_by
  let l := if user ∈ l then l.erase user else l ++ [user]
  joinNl l

theorem splitNl_ne_nil (s : Str) : splitNl s ≠ [] := by
  cases s with
  | nil => simp [splitNl]
  | cons c cs =>
    simp only [splitNl]
    cases h : splitNl cs with
    | nil => simp
    | cons h t =>
      by_cases hc : c = '\n' <;> simp [hc]

theorem splitNl_no_newline (x : Str) (hx : '\n' ∉ x) : splitNl x = [x] := by
  induction x with
  | nil => rfl
  | cons c cs ih =>
    have hc : c ≠ '\n' := fun h => hx (h ▸ List.mem_cons_self c cs)
    have hcs : '\n' ∉ cs := fun h => hx (List.mem_cons_of_mem c h)
    simp [splitNl, ih hcs, hc]

theorem splitNl_append_newline (x : Str) (hx : '\n' ∉ x) (l : Str) :
    splitNl (x ++ '\n' :: l) = x :: splitNl l := by
  induction x with
  | nil =>
    simp only [List.nil_append, splitNl]
    cases h : splitNl l with
    | nil => exact absurd h (splitNl_ne_nil l)
    | cons h t => simp
  | cons c cs ih =>
    have hc : c ≠ '\n' := fun h => hx (h ▸ List.mem_cons_self c cs)
    have hcs : '\n' ∉ cs := fun h => hx (List.mem_cons_of_mem c h)
    simp only [List.cons_append, splitNl, List.append_eq]
    rw [ih hcs]
    simp [hc]

/-- For a nonempty list of newline-free pieces that is not the lone empty
piece, splitting the join recovers the pieces. -/
theorem splitNl_joinNl (l : List Str) (hl : l ≠ []) (hnl : ∀ x ∈ l, '\n' ∉ x) :
    splitNl (joinNl l) = l := by
  induction l with
  | nil => exact absurd rfl hl
  | cons x xs ih =>
    cases xs with
    | nil =>
      simpa [joinNl] using splitNl_no_newline x (hnl x (List.mem_cons_self x []))
    | cons y ys =>
      have hx : '\n' ∉ x := hnl x (List.mem_cons_self x (y :: ys))
      have hrest : ∀ z ∈ y :: ys, '\n' ∉ z := fun z hz =>
        hnl z (List.mem_cons_of_mem x hz)
      have := ih (by simp) hrest
      simp only [joinNl]
      rw [splitNl_append_newline x hx, this]

theorem mem_splitNl_no_newline (s : Str) : ∀ x ∈ splitNl s, '\n' ∉ x := by
  induction s with
  | nil => intro x hx; simp [splitNl] at hx; simp [hx]
  | cons c cs ih =>
    intro x hx
    cases h : splitNl cs with
    | nil => exact absurd h (splitNl_ne_nil cs)
    | cons hd tl =>
      have e : splitNl (c :: cs) = if c = '\n' then [] :: hd :: tl else (c :: hd) :: tl := by
        simp only [splitNl, h]
      rw [e] at hx
      have hhd : '\n' ∉ hd := ih hd (by rw [h]; exact List.mem_cons_self hd tl)
      by_cases hc : c = '\n'
      · rw [if_pos hc] at hx
        rcases List.mem_cons.mp hx with hx | hx
        · simp [hx]
        · rcases List.mem_cons.mp hx with hx | hx
          · rw [hx]; exact hhd
          · exact ih x (by rw [h]; exact List.mem_cons_of_mem hd hx)
      · rw [if_neg hc] at hx
        rcases List.mem_cons.mp hx with hx | hx
        · rw [hx]
          intro hmem
          rcases List.mem_cons.mp hmem with h1 | h1
          · exact hc h1.symm
          · exact hhd h1
        · exact ih x (by rw [h]; exact List.mem_cons_of_mem hd hx)

theorem joinNl_cons_cons (c : Char) (h : Str) (t : List Str) :
    joinNl ((c :: h) :: t) = c :: joinNl (h :: t) := by
  cases t with
  | nil => rfl
  | cons y ys => simp [joinNl]

theorem joinNl_splitNl (s : Str) : joinNl (splitNl s) = s := by
  induction s with
  | nil => rfl
  | cons c cs ih =>
    cases h : splitNl cs with
    | nil => exact absurd h (splitNl_ne_nil cs)
    | cons hd tl =>
      have e : splitNl (c :: cs) = if c = '\n' then [] :: hd :: tl else (c :: hd) :: tl := by
        simp only [splitNl, h]
      rw [h] at ih
      rw [e]
      by_cases hc : c = '\n'
      · rw [if_pos hc, hc]
        simp [joinNl, ih]
      · rw [if_neg hc, joinNl_cons_cons, ih]

/-- Parsing the join recovers the pieces, provided pieces are newline-free
and the list is not the single empty piece (whose join is the empty string,
parsed back as the empty list). -/
theorem parseLikedBy_joinNl (l : List Str) (hnl : ∀ x ∈ l, '\n' ∉ x)
    (h : l ≠ [[]]) : parseLikedBy (joinNl l) = l := by
  cases l with
  | nil => rfl
  | cons x xs =>
    have hne : joinNl (x :: xs) ≠ [] := by
      cases xs with
      | nil =>
        simp only [joinNl]
        intro hx; exact h (by rw [hx])
      | cons y ys => simp [joinNl]
    rw [parseLikedBy, if_neg hne, splitNl_joinNl _ (by simp) hnl]

theorem parseLikedBy_no_newline (s : Str) : ∀ x ∈ parseLikedBy s, '\n' ∉ x := by
  unfold parseLikedBy
  by_cases hs : s = []
  · simp [hs]
  · rw [if_neg hs]; exact mem_splitNl_no_newline s

theorem toggle_like_eq (s user : Str) :
    toggle_like s user =
      joinNl (if user ∈ parseLikedBy s
              then (parseLikedBy s).erase user
              else parseLikedBy s ++ [user]) := rfl

/-- C9 (amended): toggling adds the user exactly when absent and removes the
first occurrence exactly when present; applying `toggle_like` twice preserves
the set of liked-by entries, and restores the stored value exactly when the
user was absent initially — under the hypotheses that the user is nonempty
and newline-free and that the stored list has no duplicate and no empty
entries. -/
theorem toggle_like_involution (s user : Str)
    (hu : user ≠ []) (hnl : '\n' ∉ user)
    (hnd : (parseLikedBy s).Nodup) (hne : [] ∉ parseLikedBy s) :
    ((user ∈ parseLikedBy (toggle_like s user)) ↔ user ∉ parseLikedBy s)
    ∧ (∀ x, x ∈ parseLikedBy (toggle_like (toggle_like s user) user)
        ↔ x ∈ parseLikedBy s)
    ∧ (user ∉ parseLikedBy s → toggle_like (toggle_like s user) user = s) := by
  have hLnl : ∀ x ∈ parseLikedBy s, '\n' ∉ x := parseLikedBy_no_newline s
  by_cases hmem : user ∈ parseLikedBy s
  · have h1 : toggle_like s user = joinNl ((parseLikedBy s).erase user) := by
      rw [toggle_like_eq, if_pos hmem]
    have hEnl : ∀ x ∈ (parseLikedBy s).erase user, '\n' ∉ x := fun x hx =>
      hLnl x (List.mem_of_mem_erase hx)
    have hEne : (parseLikedBy s).erase user ≠ [[]] := by
      intro h
      exact hne (List.mem_of_mem_erase (h ▸ List.mem_cons_self ([] : Str) []))
    have hparse1 : parseLikedBy (toggle_like s user) = (parseLikedBy s).erase user := by
      rw [h1]; exact parseLikedBy_joinNl _ hEnl hEne
    have husernot : user ∉ (parseLikedBy s).erase user := hnd.not_mem_erase
    have h2 : toggle_like (toggle_like s user) user
        = joinNl ((parseLikedBy s).erase user ++ [user]) := by
      rw [toggle_like_eq, hparse1, if_neg husernot]
    have hAnl : ∀ x ∈ (parseLikedBy s).erase user ++ [user], '\n' ∉ x := by
      intro x hx
      rcases List.mem_append.mp hx with hx | hx
      · exact hEnl x hx
      · rw [List.mem_singleton.mp hx]; exact hnl
    have hAne : (parseLikedBy s).erase user ++ [user] ≠ [[]] := by
      intro h
      have huser : user ∈ ([[]] : List Str) :=
        h ▸ List.mem_append_right _ (List.mem_singleton_self user)
      exact hu (List.mem_singleton.mp huser)
    have hparse2 : parseLikedBy (toggle_like (toggle_like s user) user)
        = (parseLikedBy s).erase user ++ [user] := by
      rw [h2]; exact parseLikedBy_joinNl _ hAnl hAne
    refine ⟨?_, ?_, fun h => absurd hmem h⟩
    · rw [hparse1]
      simp [husernot, hmem]
    · intro x
      rw [hparse2, List.mem_append, hnd.mem_erase_iff, List.mem_singleton]
      constructor
      · rintro (⟨_, hxL⟩ | rfl)
        · exact hxL
        · exact hmem
      · intro hxL
        by_cases hxu : x = user
        · exact Or.inr hxu
        · exact Or.inl ⟨hxu, hxL⟩
  · have h1 : toggle_like s user = joinNl (parseLikedBy s ++ [user]) := by
      rw [toggle_like_eq, if_neg hmem]
    have hAnl : ∀ x ∈ parseLikedBy s ++ [user], '\n' ∉ x := by
      intro x hx
      rcases List.mem_append.mp hx with hx | hx
      · exact hLnl x hx
      · rw [List.mem_singleton.mp hx]; exact hnl
    have hAne : parseLikedBy s ++ [user] ≠ [[]] := by
      intro h
      have huser : user ∈ ([[]] : List Str) :=
        h ▸ List.mem_append_right _ (List.mem_singleton_self user)
      exact hu (List.mem_singleton.mp huser)
    have hparse1 : parseLikedBy (toggle_like s user) = parseLikedBy s ++ [user] := by
      rw [h1]; exact parseLikedBy_joinNl _ hAnl hAne
    have huser1 : user ∈ parseLikedBy s ++ [user] :=
      List.mem_append_right _ (List.mem_singleton_self user)
    have herase : (parseLikedBy s ++ [user]).erase user = parseLikedBy s := by
      rw [List.erase_append_right _ hmem, List.erase_cons_head, List.append_nil]
    have hval : toggle_like (toggle_like s user) user = s := by
      rw [toggle_like_eq, hparse1, if_pos huser1, herase]
      by_cases hs : s = []
      · subst hs; rfl
      · rw [parseLikedBy, if_neg hs]; exact joinNl_splitNl s
    refine ⟨?_, fun x => by rw [hval], fun _ => hval⟩
    rw [hparse1]
    simp [hmem, huser1]

/-- C9 counterexample: with stored value `"u\na"` and user `"u"`, two
applications of `toggle_like` yield `"a\nu"`, not the original `"u\na"` —
the stored value is not restored, so `toggle_like` is not an involution on
the stored value as the claim states. -/
theorem toggle_like_not_value_involutive :
    toggle_like (toggle_like ['u', '\n', 'a'] ['u']) ['u'] ≠ ['u', '\n', 'a'] := by
  decide

/-- Witness for `toggle_like_involution` at stored value `"a"` and
user `"u"`. -/
theorem toggle_like_involution_witness :
    (['u'] : Str) ≠ [] ∧
      toggle_like (toggle_like ['a'] ['u']) ['u'] = ['a'] :=
  ⟨by decide,
    (toggle_like_involution ['a'] ['u'] (by decide) (by decide) (by decide)
      (by decide)).2.2 (by decide)⟩

/-- The database backend, per `frappe.conf.db_type` (`"postgres"` or not). -/
inductive DbType where
  | postgres
  | mariadb
deriving DecidableEq, Repr

/-- The per-doctype predicate string of `exists_in_backup` in
`frappe/tests/test_commands.py`: `'COPY public."tab{}"'` on postgres, else
`"CREATE TABLE ` ++ "`" ++ `tab{}` ++ "`" ++ `"`, with the doctype name
substituted for `{}`. -/
def tablePredicate (dbType : DbType) (doctype : Str) : Str :=
  match dbType with
  | DbType.postgres => "COPY public.\"tab".data ++ doctype ++ "\"".data
  | DbType.mariadb => "CREATE TABLE `tab".data ++ doctype ++ "`".data

/-- `exists_in_backup` from `frappe/tests/test_commands.py`: for each doctype
in the list, check that its predicate string occurs (case-insensitively) in
the decompressed file content, and return the conjunction (`all`).  The
gzip decompression is externalised: `content` is the decompressed text. -/
def exists_in_backup (dbType : DbType) (doctypes : List Str) (content : Str) : Bool :=
  doctypes.all fun doctype =>
    containsSub (strLower (tablePredicate dbType doctype)) (strLower content)

/-- C10: `exists_in_backup` is the conjunction over its doctype list of
case-insensitive containment of each doctype's definition pattern: the empty
list always yields `true`, `true` holds exactly when every listed pattern
occurs, and a `false` result guarantees only that at least one listed
pattern is absent. -/
theorem exists_in_backup_conjunction (dbType : DbType) (doctypes : List Str)
    (content : Str) :
    exists_in_backup dbType [] content = true
    ∧ (exists_in_backup dbType doctypes content = true ↔
        ∀ d ∈ doctypes,
          containsSub (strLower (tablePredicate dbType d)) (strLower content) = true)
    ∧ (exists_in_backup dbType doctypes content = false →
        ∃ d ∈ doctypes,
          containsSub (strLower (tablePredicate dbType d)) (strLower content) = false) := by
  refine ⟨rfl, by simp [exists_in_backup], ?_⟩
  intro h
  rcases List.all_eq_false.mp h with ⟨d, hd, hfalse⟩
  exact ⟨d, hd, Bool.eq_false_iff.mpr hfalse⟩

/-- Witness for `exists_in_backup_conjunction`: on empty content, the single
doctype `"X"` is reported absent. -/
theorem exists_in_backup_conjunction_witness :
    ∃ d ∈ [['X']],
      containsSub (strLower (tablePredicate DbType.mariadb d)) (strLower []) = false :=
  (exists_in_backup_conjunction DbType.mariadb [['X']] []).2.2 (by decide)

/-! The backup/restore implementation (`frappe/utils/backups.py` and the
`backup`/`partial-restore` bench commands) is not among the available
sources — only its tests are.  The definitions below are therefore modelled
from the spec. -/

/-- Modelled from the spec: a normalized table/doctype name
(`TableName` in the data model of the missing backup module). -/
abbrev TableName := Str

/-- Modelled from the spec: one tenant table with its schema and row count,
the unit the missing dump/restore engine operates on. -/
structure Table where
  name : TableName
  schema : Nat
  rows : Nat
deriving DecidableEq, Repr

/-- Modelled from the spec: a tenant database, a sequence of tables. -/
abbrev Database := List Table

/-- Modelled from the spec: the effective table filter produced by the
missing Filter Policy Resolver (`FilterPolicy` in the data model). -/
structure FilterPolicy where
  includes : List TableName
  excludes : List TableName
deriving DecidableEq, Repr

/-- Modelled from the spec: the missing Filter Policy Resolver.  When
`ignoreConfig` is set the persisted configuration is discarded entirely;
invocation-level include/exclude take precedence over configuration-level
equivalents for any table they mention; excludes are dropped for any table
explicitly included. -/
def resolveFilter (cliInclude cliExclude confIncludes confExcludes : List TableName)
    (ignoreConfig : Bool) : FilterPolicy :=
  let confI := if ignoreConfig then [] else confIncludes
  let confE := if ignoreConfig then [] else confExcludes
  let includes := cliInclude ++ confI.filter (fun t => ¬ t ∈ cliExclude)
  let excludes :=
    (cliExclude ++ confE.filter (fun t => ¬ t ∈ cliInclude)).filter
      (fun t => ¬ t ∈ includes)
  ⟨includes, excludes⟩

/-- Modelled from the spec: any non-empty include list makes the backup
partial. -/
def FilterPolicy.isPartialPolicy (p : FilterPolicy) : Bool :=
  !p.includes.isEmpty

/-- Modelled from the spec: whether the missing Dump Engine dumps a given
table under a policy — no include list means every non-excluded table, a
non-empty include list means exactly its members (a table present in both
sets is treated as included). -/
def tableIncluded (p : FilterPolicy) (t : TableName) : Bool :=
  if p.includes.isEmpty then ¬ t ∈ p.excludes else t ∈ p.includes

/-- Modelled from the spec: the missing Dump Engine's output, the tables of
the live database selected by the policy (each carried with its definition
and rows). -/
def backupDump (db : Database) (p : FilterPolicy) : List Table :=
  db.filter fun t => tableIncluded p t.name

/-- Modelled from the spec: whether a dump contains a creation/definition
statement for a table name. -/
def dumpHasTable (dump : List Table) (n : TableName) : Bool :=
  dump.any fun t => t.name = n

/-- Modelled from the spec: lookup of a table in the live database by name
(first match). -/
def lookupTable (db : Database) (n : TableName) : Option Table :=
  db.find? fun t => t.name = n

/-- Modelled from the spec: `DROP TABLE` on the live database. -/
def dropTable (db : Database) (n : TableName) : Database :=
  db.filter fun t => ¬ t.name = n

/-- Modelled from the spec: the missing Restore Engine's partial mode —
it imports only the tables contained in the dump, leaving every table absent
from the dump untouched. -/
def partialRestore (dump : List Table) (db : Database) : Database :=
  db.filter (fun t => ¬ dumpHasTable dump t.name) ++ dump

theorem find?_filter_of_imp {α : Type} (p q : α → Bool) (l : List α)
    (h : ∀ a, p a = true → q a = true) :
    (l.filter q).find? p = l.find? p := by
  induction l with
  | nil => rfl
  | cons x xs ih =>
    by_cases hq : q x = true
    · rw [List.filter_cons_of_pos hq]
      by_cases hp : p x = true
      · rw [List.find?_cons_of_pos _ hp, List.find?_cons_of_pos _ hp]
      · rw [List.find?_cons_of_neg _ hp, List.find?_cons_of_neg _ hp, ih]
    · have hp : ¬ p x = true := fun hpx => hq (h x hpx)
      rw [List.filter_cons_of_neg (by simpa using hq), List.find?_cons_of_neg _ hp, ih]

/-- C1: partial-restore round-trip — if table `T` is in the live database,
then backing up with an include filter restricted to `T`, dropping `T`, and
partial-restoring that dump yields a database in which `T` exists again with
its exact original record (schema and row count). -/
theorem partial_restore_round_trip (db : Database) (T : TableName) (tbl : Table)
    (h : lookupTable db T = some tbl) :
    lookupTable
      (partialRestore (backupDump db (resolveFilter [T] [] [] [] false))
        (dropTable db T)) T = some tbl := by
  have hdump : backupDump db (resolveFilter [T] [] [] [] false)
      = db.filter (fun t => t.name = T) := by
    unfold backupDump
    apply List.filter_congr
    intro t _
    simp [resolveFilter, tableIncluded]
  have hfind_dump :
      (backupDump db (resolveFilter [T] [] [] [] false)).find?
        (fun t => t.name = T) = some tbl := by
    rw [hdump, find?_filter_of_imp _ _ _ (fun a ha => ha)]
    exact h
  unfold lookupTable partialRestore
  rw [List.find?_append]
  have hleft :
      ((dropTable db T).filter
        (fun t => ¬ dumpHasTable (backupDump db (resolveFilter [T] [] [] [] false)) t.name)).find?
        (fun t => t.name = T) = none := by
    rw [List.find?_eq_none]
    intro x hx
    have hx' : x ∈ dropTable db T := List.mem_of_mem_filter hx
    have hxname : ¬ x.name = T := by
      have := List.of_mem_filter hx'
      simpa using this
    simpa using hxname
  rw [hleft, Option.none_or]
  exact hfind_dump

/-- C2: frame property of partial restore — a table name not mentioned by
any table in the dump resolves to exactly the same lookup result (existence,
schema, rows) after the restore as before it. -/
theorem partial_restore_frame (db : Database) (dump : List Table) (n : TableName)
    (h : ∀ t ∈ dump, t.name ≠ n) :
    lookupTable (partialRestore dump db) n = lookupTable db n := by
  unfold lookupTable partialRestore
  rw [List.find?_append]
  have hdumpnone : dump.find? (fun t => t.name = n) = none := by
    rw [List.find?_eq_none]
    intro x hx
    simpa using h x hx
  rw [hdumpnone, Option.or_none]
  apply find?_filter_of_imp
  intro a ha
  have hname : a.name = n := by simpa using ha
  have hnone : dumpHasTable dump a.name = false := by
    rw [hname]
    simp only [dumpHasTable, List.any_eq_false]
    intro t ht
    simpa using h t ht
  simp [hnone]

/-- Witness for `partial_restore_round_trip`: a two-table database where
dropping and partial-restoring the `ToDo` table recovers its record. -/
theorem partial_restore_round_trip_witness :
    lookupTable
      (partialRestore
        (backupDump [⟨"ToDo".data, 1, 10⟩, ⟨"Note".data, 2, 3⟩]
          (resolveFilter ["ToDo".data] [] [] [] false))
        (dropTable [⟨"ToDo".data, 1, 10⟩, ⟨"Note".data, 2, 3⟩] "ToDo".data))
      "ToDo".data = some ⟨"ToDo".data, 1, 10⟩ :=
  partial_restore_round_trip [⟨"ToDo".data, 1, 10⟩, ⟨"Note".data, 2, 3⟩]
    "ToDo".data ⟨"ToDo".data, 1, 10⟩ (by decide)

/-- Witness for `partial_restore_frame`: restoring a dump holding only
`ToDo` leaves the lookup of `Note` unchanged. -/
theorem partial_restore_frame_witness :
    lookupTable
      (partialRestore [⟨"ToDo".data, 1, 10⟩]
        [⟨"Note".data, 2, 3⟩]) "Note".data
      = lookupTable [⟨"Note".data, 2, 3⟩] "Note".data :=
  partial_restore_frame [⟨"Note".data, 2, 3⟩] [⟨"ToDo".data, 1, 10⟩]
    "Note".data (by decide)

theorem dumpHasTable_backupDump (db : Database) (p : FilterPolicy) (n : TableName) :
    dumpHasTable (backupDump db p) n = (dumpHasTable db n && tableIncluded p n) := by
  rw [Bool.eq_iff_iff]
  simp only [dumpHasTable, backupDump, List.any_eq_true, List.mem_filter,
    Bool.and_eq_true, decide_eq_true_eq]
  constructor
  · rintro ⟨t, ⟨htdb, hinc⟩, hname⟩
    exact ⟨⟨t, htdb, hname⟩, hname ▸ hinc⟩
  · rintro ⟨⟨t, htdb, hname⟩, hinc⟩
    exact ⟨t, ⟨htdb, hname ▸ hinc⟩, hname⟩

/-- C3: filter containment — the dump produced by a backup contains a
definition statement for a table exactly when the table exists in the live
database and is selected by the resolved filter; in particular it contains
none for any table the filter excludes. -/
theorem filter_containment (db : Database) (p : FilterPolicy) (n : TableName) :
    dumpHasTable (backupDump db p) n = true ↔
      (dumpHasTable db n = true ∧ tableIncluded p n = true) := by
  rw [dumpHasTable_backupDump]
  exact Bool.and_eq_true_iff

/-- C4: include-over-exclude precedence — any table in a policy's include
set is treated as included, and concretely, with includes `{A}` and
excludes `{A, B}` the dump contains a definition for `A` and none for
`B`. -/
theorem include_over_exclude (db : Database) (A B : TableName)
    (hAB : A ≠ B) (hA : dumpHasTable db A = true) :
    (∀ (p : FilterPolicy) (t : TableName), t ∈ p.includes → tableIncluded p t = true)
    ∧ dumpHasTable (backupDump db ⟨[A], [A, B]⟩) A = true
    ∧ dumpHasTable (backupDump db ⟨[A], [A, B]⟩) B = false := by
  refine ⟨?_, ?_, ?_⟩
  · intro p t ht
    unfold tableIncluded
    cases hni : p.includes.isEmpty
    · simp [ht]
    · rw [List.isEmpty_iff] at hni
      rw [hni] at ht
      exact absurd ht (List.not_mem_nil t)
  · rw [dumpHasTable_backupDump, hA]
    simp [tableIncluded]
  · rw [dumpHasTable_backupDump]
    have : tableIncluded ⟨[A], [A, B]⟩ B = false := by
      simp [tableIncluded, Ne.symm hAB]
    rw [this, Bool.and_false]

/-- Witness for `include_over_exclude` with `A = "ToDo"`, `B = "Note"` on a
two-table database. -/
theorem include_over_exclude_witness :
    dumpHasTable
      (backupDump [⟨"ToDo".data, 1, 10⟩, ⟨"Note".data, 2, 3⟩]
        ⟨["ToDo".data], ["ToDo".data, "Note".data]⟩) "ToDo".data = true
    ∧ dumpHasTable
        (backupDump [⟨"ToDo".data, 1, 10⟩, ⟨"Note".data, 2, 3⟩]
          ⟨["ToDo".data], ["ToDo".data, "Note".data]⟩) "Note".data = false :=
  (include_over_exclude [⟨"ToDo".data, 1, 10⟩, ⟨"Note".data, 2, 3⟩]
    "ToDo".data "Note".data (by decide) (by decide)).2

/-- C5: the ignore-config flag discards the persisted configuration — the
resolved policy is the same as with empty persisted lists, and a backup
taken with the flag and no invocation-level filters dumps every table of
the live database, including any the persisted excludes would have
removed. -/
theorem ignore_backup_conf (cliI cliE confI confE : List TableName) (db : Database) :
    resolveFilter cliI cliE confI confE true = resolveFilter cliI cliE [] [] true
    ∧ (∀ n, dumpHasTable db n = true →
        dumpHasTable (backupDump db (resolveFilter [] [] confI confE true)) n = true) := by
  refine ⟨rfl, ?_⟩
  intro n h
  rw [dumpHasTable_backupDump, h]
  have hpol : resolveFilter [] [] confI confE true = ⟨[], []⟩ := rfl
  rw [hpol]
  simp [tableIncluded]

/-- Witness for `ignore_backup_conf`: with persisted excludes
`["Error Log"]` ignored, the dump still contains `Error Log`. -/
theorem ignore_backup_conf_witness :
    dumpHasTable
      (backupDump [⟨"Error Log".data, 1, 5⟩]
        (resolveFilter [] [] [] ["Error Log".data] true)) "Error Log".data = true :=
  (ignore_backup_conf [] [] [] ["Error Log".data]
    [⟨"Error Log".data, 1, 5⟩]).2 "Error Log".data (by decide)

/-- Modelled from the spec: the missing Path Planner's output
(`BackupPaths` in the data model). -/
structure BackupPaths where
  databasePath : Str
  publicFilesPath : Option Str
  privateFilesPath : Option Str
  configPath : Str
  isPartialFlag : Bool
  withFiles : Bool
deriving DecidableEq, Repr

/-- Modelled from the spec: the missing Path Planner's default convention —
paths under the tenant's private backup directory, named with a timestamp
and a `-partial` suffix when the filter policy is non-trivial. -/
def planPaths (site timestamp : Str) (isPartialFlag withFiles : Bool) : BackupPaths :=
  let base := site ++ "/private/backups/".data ++ timestamp
  { databasePath :=
      base ++ (if isPartialFlag then "-partial".data else []) ++ "-database.sql.gz".data
    publicFilesPath := if withFiles then some (base ++ "-files.tar".data) else none
    privateFilesPath :=
      if withFiles then some (base ++ "-private-files.tar".data) else none
    configPath := base ++ "-site_config_backup.json".data
    isPartialFlag := isPartialFlag
    withFiles := withFiles }

theorem containsSub_append_left (n b : Str) (a : Str) (h : containsSub n b = true) :
    containsSub n (a ++ b) = true := by
  induction a with
  | nil => exact h
  | cons c a' ih => simp [containsSub, ih]

theorem containsSub_self_append (n b : Str) : containsSub n (n ++ b) = true := by
  cases n with
  | nil =>
    cases b with
    | nil => rfl
    | cons c t => simp [containsSub, List.isPrefixOf]
  | cons c t =>
    have hpre : (c :: t).isPrefixOf ((c :: t) ++ b) = true := by
      rw [List.isPrefixOf_iff_prefix]
      exact List.prefix_append _ _
    show containsSub (c :: t) (c :: (t ++ b)) = true
    simp only [containsSub]
    rw [show c :: (t ++ b) = (c :: t) ++ b from rfl, hpre, Bool.true_or]

/-- C7: partial flag propagation — whenever the merged include list is
non-empty, the policy is flagged partial, the planned paths carry the flag,
and the planned database path contains the substring `"partial"`. -/
theorem partial_flag_propagation (cliI cliE confI confE : List TableName)
    (ig : Bool) (site timestamp : Str) (withFiles : Bool)
    (h : (resolveFilter cliI cliE confI confE ig).includes ≠ []) :
    FilterPolicy.isPartialPolicy (resolveFilter cliI cliE confI confE ig) = true
    ∧ BackupPaths.isPartialFlag
        (planPaths site timestamp
          (FilterPolicy.isPartialPolicy (resolveFilter cliI cliE confI confE ig))
          withFiles) = true
    ∧ containsSub "partial".data
        (BackupPaths.databasePath
          (planPaths site timestamp
            (FilterPolicy.isPartialPolicy (resolveFilter cliI cliE confI confE ig))
            withFiles)) = true := by
  have hp : FilterPolicy.isPartialPolicy (resolveFilter cliI cliE confI confE ig) = true := by
    unfold FilterPolicy.isPartialPolicy
    rw [Bool.not_eq_true', List.isEmpty_eq_false]
    exact h
  refine ⟨hp, by rw [hp]; rfl, ?_⟩
  rw [hp]
  show containsSub "partial".data
    ((site ++ "/private/backups/".data ++ timestamp)
      ++ (if true then "-partial".data else []) ++ "-database.sql.gz".data) = true
  rw [if_pos rfl, List.append_assoc, List.append_assoc]
  apply containsSub_append_left
  apply containsSub_append_left
  show containsSub "partial".data
    ('-' :: ("partial".data ++ "-database.sql.gz".data)) = true
  have := containsSub_self_append "partial".data "-database.sql.gz".data
  simp [containsSub, this]

/-- Witness for `partial_flag_propagation` at `--only ToDo` on a concrete
site and timestamp. -/
theorem partial_flag_propagation_witness :
    containsSub "partial".data
      (BackupPaths.databasePath
        (planPaths "site1".data "20200101_000000".data
          (FilterPolicy.isPartialPolicy
            (resolveFilter ["ToDo".data] [] [] [] false))
          false)) = true :=
  (partial_flag_propagation ["ToDo".data] [] [] [] false "site1".data
    "20200101_000000".data false (by decide)).2.2

/-- Modelled from the spec: a completed backup's registry entry
(`BackupRecord` in the data model), as derived from the backup directory's
filename convention. -/
structure BackupRecord where
  timestamp : Nat
  databasePath : Str
  isPartialFlag : Bool
deriving DecidableEq, Repr

/-- Modelled from the spec: keep the record with the maximal timestamp
(later entries win ties). -/
def pickLater (acc : Option BackupRecord) (r : BackupRecord) : Option BackupRecord :=
  match acc with
  | none => some r
  | some b => if b.timestamp ≤ r.timestamp then some r else some b

/-- Modelled from the spec: the missing Backup Registry's "latest" query —
restrict the directory-derived records to the requested category (full or
partial) and return the maximum by timestamp, `none` when no backup is
found. -/
def latestBackup (records : List BackupRecord) (wantPartial : Bool) :
    Option BackupRecord :=
  (records.filter fun r => r.isPartialFlag = wantPartial).foldl pickLater none

theorem foldl_pickLater_prop (P : BackupRecord → Prop) (l : List BackupRecord) :
    ∀ (acc : Option BackupRecord),
      (∀ b, acc = some b → P b) → (∀ r ∈ l, P r) →
      ∀ r, l.foldl pickLater acc = some r → P r := by
  induction l with
  | nil =>
    intro acc hacc _ r hr
    exact hacc r hr
  | cons x xs ih =>
    intro acc hacc hl r hr
    rw [List.foldl_cons] at hr
    refine ih (pickLater acc x) ?_ (fun t ht => hl t (List.mem_cons_of_mem x ht)) r hr
    intro b hb
    cases acc with
    | none =>
      simp only [pickLater, Option.some.injEq] at hb
      exact hb ▸ hl x (List.mem_cons_self x xs)
    | some a =>
      simp only [pickLater] at hb
      by_cases hle : a.timestamp ≤ x.timestamp
      · rw [if_pos hle, Option.some.injEq] at hb
        exact hb ▸ hl x (List.mem_cons_self x xs)
      · rw [if_neg hle, Option.some.injEq] at hb
        exact hb ▸ hacc a rfl

theorem latestBackup_flag (recs : List BackupRecord) (wantPartial : Bool)
    (r : BackupRecord) (h : latestBackup recs wantPartial = some r) :
    r.isPartialFlag = wantPartial := by
  unfold latestBackup at h
  refine foldl_pickLater_prop (fun b => b.isPartialFlag = wantPartial) _ none
    (by simp) ?_ r h
  intro t ht
  have := List.mem_filter.mp ht
  simpa using this.2

/-- C6: registry full/partial separation — the latest-full query never
returns a partial record and the latest-partial query never returns a full
record; and after one full backup followed by a chronologically later
partial backup, latest-full returns the first and latest-partial the
second. -/
theorem registry_full_partial_separation
    (recs : List BackupRecord) (r fullRec partRec : BackupRecord)
    (hf : fullRec.isPartialFlag = false) (hp : partRec.isPartialFlag = true)
    (_hlt : fullRec.timestamp < partRec.timestamp) :
    (latestBackup recs false = some r → r.isPartialFlag = false)
    ∧ (latestBackup recs true = some r → r.isPartialFlag = true)
    ∧ latestBackup [fullRec, partRec] false = some fullRec
    ∧ latestBackup [fullRec, partRec] true = some partRec := by
  refine ⟨latestBackup_flag recs false r, latestBackup_flag recs true r, ?_, ?_⟩
  · simp [latestBackup, pickLater, hf, hp]
  · simp [latestBackup, pickLater, hf, hp]

/-- Witness for `registry_full_partial_separation` on a full record at time
1 and a partial record at time 2. -/
theorem registry_full_partial_separation_witness :
    latestBackup [⟨1, ['f'], false⟩, ⟨2, ['p'], true⟩] false = some ⟨1, ['f'], false⟩
    ∧ latestBackup [⟨1, ['f'], false⟩, ⟨2, ['p'], true⟩] true = some ⟨2, ['p'], true⟩ := by
  have H := registry_full_partial_separation
    [⟨1, ['f'], false⟩, ⟨2, ['p'], true⟩] ⟨1, ['f'], false⟩
    ⟨1, ['f'], false⟩ ⟨2, ['p'], true⟩ (by decide) (by decide) (by decide)
  exact ⟨H.2.2.1, H.2.2.2⟩

/-- Modelled from the spec: one file written into the backup directory. -/
structure Artifact where
  path : Str
  content : Str
deriving DecidableEq, Repr

/-- Modelled from the spec: the individual artifacts the missing Dump
Engine writes at the planned paths — database dump, optional public and
private file archives, and the configuration snapshot. -/
def dumpArtifacts (paths : BackupPaths) (dbContent filesContent confContent : Str) :
    List Artifact :=
  ⟨paths.databasePath, dbContent⟩ ::
    ((match paths.publicFilesPath with
      | some p => [(⟨p, filesContent⟩ : Artifact)]
      | none => []) ++
     (match paths.privateFilesPath with
      | some p => [(⟨p, filesContent⟩ : Artifact)]
      | none => []) ++
     [⟨paths.configPath, confContent⟩])

/-- Modelled from the spec: the missing Archive Bundler — one `.tgz`
archive holding all individual artifacts. -/
def bundleArtifact (tgzPath : Str) (arts : List Artifact) : Artifact :=
  ⟨tgzPath, (arts.map Artifact.content).flatten⟩

/-- Modelled from the spec: the set of files a backup invocation leaves in
the backup directory — the individual artifacts, plus the bundled archive
when compression is requested. -/
def backupRun (paths : BackupPaths) (tgzPath : Str) (compress : Bool)
    (dbContent filesContent confContent : Str) : List Artifact :=
  let arts := dumpArtifacts paths dbContent filesContent confContent
  if compress then arts ++ [bundleArtifact tgzPath arts] else arts

/-- C8: compression additivity — a backup run with compression produces the
bundled archive in addition to the individual artifacts, and every artifact
the same run without compression would produce is still present, with
identical path and content. -/
theorem compression_additivity (paths : BackupPaths) (tgzPath : Str)
    (dbContent filesContent confContent : Str) :
    (bundleArtifact tgzPath (dumpArtifacts paths dbContent filesContent confContent)
        ∈ backupRun paths tgzPath true dbContent filesContent confContent)
    ∧ (∀ a ∈ backupRun paths tgzPath false dbContent filesContent confContent,
        a ∈ backupRun paths tgzPath true dbContent filesContent confContent) := by
  refine ⟨?_, ?_⟩
  · exact List.mem_append_right _ (List.mem_singleton_self _)
  · intro a ha
    exact List.mem_append_left _ ha

/-- Witness for `compression_additivity`: the database dump artifact of a
concrete uncompressed run is present in the compressed run. -/
theorem compression_additivity_witness :
    (⟨['d'], ['x']⟩ : Artifact) ∈
      backupRun ⟨['d'], none, none, ['c'], false, false⟩ ['t'] true ['x'] [] ['y'] :=
  (compression_additivity ⟨['d'], none, none, ['c'], false, false⟩ ['t']
    ['x'] [] ['y']).2 ⟨['d'], ['x']⟩ (by decide)

end Frappe
